import Mathlib

/-!
A shallow embedding of two binaryen optimization passes:
`ConstantFieldPropagation.cpp` and `OnceReduction.cpp`, together with
theorems checking the natural-language specification of the passes.

Names are interned in binaryen (`Name`); we model them as `Nat`, with `0`
playing the role of the null/empty `Name()`.
-/

namespace Wasm

/-- Interned identifier; `0` is the null name (`Name()` in the source). -/
abbrev Name := Nat

/-- A literal value (`wasm::Literal`).  Equality is structural; floats are
identified by their bit pattern, which matches binaryen's bitwise literal
equality. -/
inductive Literal where
  | i32 (v : Int)
  | i64 (v : Int)
  | f32 (bits : Nat)
  | f64 (bits : Nat)
  | funcref (name : Name) (ht : Nat)
  | nullref (ht : Nat)
deriving DecidableEq, Repr

/-- Static types (`wasm::Type`): basic value types, reference types carrying
a heap type, the `unreachable` bottom type, and `none`. -/
inductive Ty where
  | none
  | i32
  | i64
  | f32
  | f64
  | ref (ht : Nat)
  | unreachable
deriving DecidableEq, Repr

def Ty.isInteger : Ty → Bool
  | .i32 => true
  | .i64 => true
  | _ => false

def Ty.isRef : Ty → Bool
  | .ref _ => true
  | _ => false

def Ty.getHeapType : Ty → Nat
  | .ref ht => ht
  | _ => 0

/-- The static type of a literal (`Literal::type`). -/
def Literal.ty : Literal → Ty
  | .i32 _ => .i32
  | .i64 _ => .i64
  | .f32 _ => .f32
  | .f64 _ => .f64
  | .funcref _ ht => .ref ht
  | .nullref ht => .ref ht

/-- `Literal::getInteger` (only meaningful on integer literals, which is how
the source guards every use). -/
def Literal.getInteger : Literal → Int
  | .i32 v => v
  | .i64 v => v
  | _ => 0

/-- `PossibleConstantValues` from `ConstantFieldPropagation.cpp`:
`noted = false` is the unwritten bottom state; `noted = true` with a
non-empty `values` list is a constant set; `noted = true` with empty
`values` is the unknown top state. -/
structure PossibleConstantValues where
  noted : Bool := false
  values : List Literal := []
deriving DecidableEq, Repr

namespace PossibleConstantValues

/-- `MaxConstantValues` in the source. -/
def MaxConstantValues : Nat := 2

def hasNoted (p : PossibleConstantValues) : Bool := p.noted

def isConstant (p : PossibleConstantValues) : Bool :=
  p.noted && !p.values.isEmpty

/-- `noteUnknown()`: clear the values and mark as noted. -/
def noteUnknown (_p : PossibleConstantValues) : PossibleConstantValues :=
  { noted := true, values := [] }

/-- `note(Literal)`: returns the updated state and whether anything changed,
exactly following the branch structure of the source. -/
def note (p : PossibleConstantValues) (curr : Literal) :
    PossibleConstantValues × Bool :=
  if !p.noted then
    ({ noted := true, values := p.values ++ [curr] }, true)
  else if !p.isConstant then
    (p, false)
  else if curr ∈ p.values then
    (p, false)
  else if p.values.length = MaxConstantValues then
    (p.noteUnknown, true)
  else
    ({ p with values := p.values ++ [curr] }, true)

/-- The loop at the end of `combine`: note the other object's values one by
one, returning `true` at the first change (the source `return true` inside
the loop). -/
def combineLoop (p : PossibleConstantValues) :
    List Literal → PossibleConstantValues × Bool
  | [] => (p, false)
  | v :: rest =>
    let r := p.note v
    if r.2 then (r.1, true) else combineLoop r.1 rest

/-- `combine(other)`: merge the other object's information, returning
whether the receiver changed. -/
def combine (p other : PossibleConstantValues) :
    PossibleConstantValues × Bool :=
  if !other.noted then (p, false)
  else if !p.noted then (other, other.noted)
  else if !p.isConstant then (p, false)
  else if !other.isConstant then (p.noteUnknown, true)
  else combineLoop p other.values

/-- `getConstantValues` (valid when `isConstant`). -/
def getConstantValues (p : PossibleConstantValues) : List Literal := p.values

end PossibleConstantValues

/-- The IR expression forms the two passes consume (§6 of the spec).  A
`structGet` additionally carries the static type of its reference child
(`ref->type` in the source, maintained by the IR) and its own result type;
a `globalSet` carries its own static type (`none`, or `unreachable` when
the value is unreachable). -/
inductive Expression where
  | const (value : Literal)
  | structGet (ref : Expression) (refType : Ty) (index : Nat) (ty : Ty)
  | drop (value : Expression)
  | refAsNonNull (ref : Expression)
  | seq (a b : Expression)
  | select (cond ifTrue ifFalse : Expression)
  | binaryEq (ty : Ty) (a b : Expression)
  | unreachable
  | block (list : List Expression)
  | ifElse (cond : Expression) (ifTrue : Expression) (ifFalse : Option Expression)
  | ret
  | globalGet (name : Name) (ty : Ty)
  | globalSet (name : Name) (value : Expression) (ty : Ty)
  | call (target : Name)
  | nop

/-- The static type of an expression (the `type` field binaryen maintains on
every node).  Only the clauses for constants, global reads and
`unreachable` are consulted by the embedded passes. -/
def Expression.typeOf : Expression → Ty
  | .const l => l.ty
  | .structGet _ _ _ ty => ty
  | .drop _ => .none
  | .refAsNonNull r => r.typeOf
  | .seq _ b => b.typeOf
  | .select _ t _ => t.typeOf
  | .binaryEq _ _ _ => .i32
  | .unreachable => .unreachable
  | .block _ => .none
  | .ifElse _ _ _ => .none
  | .ret => .unreachable
  | .globalGet _ ty => ty
  | .globalSet _ _ ty => ty
  | .call _ => .none
  | .nop => .none

/-- `Expression::is<Const>`. -/
def Expression.isConst : Expression → Bool
  | .const _ => true
  | _ => false

/-- `Expression::is<Return>`. -/
def Expression.isRet : Expression → Bool
  | .ret => true
  | _ => false

/-! ## Constant Field Propagation: the field-get rewriter

`FunctionOptimizer::visitStructGet` and `makeConstantExpression`, acting on
a single `struct.get` with the final (post-propagation) per-type lattice
map in hand.  The map sends a heap type to the vector of lattice values of
its field slots. -/

/-- The combined `StructValuesMap` consulted by the optimizer. -/
abbrev StructValuesMap := List (Nat × List PossibleConstantValues)

/-- The default-constructed `PossibleConstantValues info` in
`visitStructGet` (nothing noted). -/
def defaultPCV : PossibleConstantValues := {}

/-- The lookup in `visitStructGet`: find the heap type's entry and index
its field vector; if no entry exists it is as if nothing was noted. -/
def getFieldInfo (infos : StructValuesMap) (ht : Nat) (index : Nat) :
    PossibleConstantValues :=
  match infos.find? (fun p => p.1 = ht) with
  | some p => p.2.getD index defaultPCV
  | none => defaultPCV

/-- `FunctionOptimizer::makeConstantExpression`: called when the lattice is
constant.  `get` data is passed as its components; the returned expression
replaces the original `struct.get` (returning the original expression
means no replacement happened). -/
def makeConstantExpression (shrinkLevel : Nat)
    (info : PossibleConstantValues)
    (ref : Expression) (refType : Ty) (index : Nat) (ty : Ty) : Expression :=
  let values := info.getConstantValues
  let orig := Expression.structGet ref refType index ty
  if values.length = 1 then
    .seq (.drop (.refAsNonNull ref)) (.const (values.getD 0 (.i32 0)))
  else if shrinkLevel > 0 then
    orig
  else if values.length = 2 then
    if ty.isRef then
      orig
    else
      .select
        (.binaryEq ty orig (.const (values.getD 0 (.i32 0))))
        (.const (values.getD 0 (.i32 0)))
        (.const (values.getD 1 (.i32 0)))
  else
    orig

/-- `FunctionOptimizer::visitStructGet`: the result of visiting one
expression; non-`struct.get` expressions (and reads the pass leaves alone)
come back unchanged. -/
def visitStructGet (infos : StructValuesMap) (shrinkLevel : Nat)
    (e : Expression) : Expression :=
  match e with
  | .structGet ref refType index ty =>
    if refType = Ty.unreachable then e
    else
      let info := getFieldInfo infos refType.getHeapType index
      if !info.hasNoted then
        .seq (.drop ref) .unreachable
      else if !info.isConstant then
        e
      else
        makeConstantExpression shrinkLevel info ref refType index ty
  | _ => e

/-! ## Once Reduction: module data and the scanner -/

/-- A module-level global (`wasm::Global`): its name, type, whether it is
imported, and its initializer expression. -/
structure Global where
  name : Name
  ty : Ty
  imported : Bool
  init : Expression

/-- A function (`wasm::Function`): name, the params/results types, and the
body. -/
structure Func where
  name : Name
  params : Ty
  results : Ty
  body : Expression

/-- The initial value `OnceReduction::run` gives `onceGlobals[g]`: the
global must be integer-typed, not imported, and initialized with a
constant. -/
def initOnceGlobal (g : Global) : Bool :=
  g.ty.isInteger && !g.imported && g.init.isConst

/-- `Scanner::getOnceGlobal`: recognize the `once` prologue pattern in a
function body, returning the guard global's name, or the null name `0`. -/
def getOnceGlobal (body : Expression) : Name :=
  match body with
  | .block list =>
    match list with
    | first :: second :: _ =>
      match first with
      | .ifElse cond ifTrue ifFalse =>
        match cond with
        | .globalGet g _ =>
          if !ifTrue.isRet || ifFalse.isSome then 0
          else
            match second with
            | .globalSet sn _ sty =>
              if sn ≠ g ∨ sty = Ty.unreachable then 0 else g
            | _ => 0
        | _ => 0
      | _ => 0
    | _ => 0
  | _ => 0

/-- The guard global `Scanner::visitFunction` tentatively records in
`onceFuncs` for a function (the null name `0` when the function is not
recognized): the function must have no params and no results, and its body
must match the `once` prologue. -/
def recordedOnceGlobal (f : Func) : Name :=
  if f.params = Ty.none ∧ f.results = Ty.none then getOnceGlobal f.body
  else 0

/-- `Scanner::visitGlobalSet`, acting on the `onceGlobals` map: a write
whose value type is not an integer is ignored; a write of a positive
integer constant is fine; anything else (non-constant, or a constant
`≤ 0`) demotes the global. -/
def scannerVisitGlobalSet (og : Name → Bool) (name : Name)
    (value : Expression) : Name → Bool :=
  if ¬value.typeOf.isInteger then og
  else
    match value with
    | .const c =>
      if c.getInteger > 0 then og else Function.update og name false
    | _ => Function.update og name false

mutual

/-- All `global.set`s in an expression, with their values, in walk order
(the `Scanner`'s `visitGlobalSet` is invoked once per such node). -/
def collectSets : Expression → List (Name × Expression)
  | .const _ => []
  | .structGet r _ _ _ => collectSets r
  | .drop e => collectSets e
  | .refAsNonNull e => collectSets e
  | .seq a b => collectSets a ++ collectSets b
  | .select c t f => collectSets c ++ collectSets t ++ collectSets f
  | .binaryEq _ a b => collectSets a ++ collectSets b
  | .unreachable => []
  | .block l => collectSetsL l
  | .ifElse c t e => collectSets c ++ collectSets t ++ collectSetsO e
  | .ret => []
  | .globalGet _ _ => []
  | .globalSet n v _ => collectSets v ++ [(n, v)]
  | .call _ => []
  | .nop => []

def collectSetsL : List Expression → List (Name × Expression)
  | [] => []
  | e :: rest => collectSets e ++ collectSetsL rest

def collectSetsO : Option Expression → List (Name × Expression)
  | Option.none => []
  | some e => collectSets e

end

mutual

/-- All `global.get`ed names in an expression (the `Scanner`'s
`readGlobals` tallies). -/
def collectGets : Expression → List Name
  | .const _ => []
  | .structGet r _ _ _ => collectGets r
  | .drop e => collectGets e
  | .refAsNonNull e => collectGets e
  | .seq a b => collectGets a ++ collectGets b
  | .select c t f => collectGets c ++ collectGets t ++ collectGets f
  | .binaryEq _ a b => collectGets a ++ collectGets b
  | .unreachable => []
  | .block l => collectGetsL l
  | .ifElse c t e => collectGets c ++ collectGets t ++ collectGetsO e
  | .ret => []
  | .globalGet n _ => [n]
  | .globalSet _ v _ => collectGets v
  | .call _ => []
  | .nop => []

def collectGetsL : List Expression → List Name
  | [] => []
  | e :: rest => collectGets e ++ collectGetsL rest

def collectGetsO : Option Expression → List Name
  | Option.none => []
  | some e => collectGets e

end

/-- One `Scanner` walk over a function, threading the shared
`(onceGlobals, onceFuncs)` state: apply `visitGlobalSet` to every global
write, record the `once` guard (if recognized) in `onceFuncs`, and demote
every global that has a read other than the single recognized prologue
read. -/
def scanFunc (st : (Name → Bool) × (Name → Name)) (f : Func) :
    (Name → Bool) × (Name → Name) :=
  let og := (collectSets f.body).foldl
    (fun m p => scannerVisitGlobalSet m p.1 p.2) st.1
  let reads := collectGets f.body
  let g := recordedOnceGlobal f
  let ofc := if g ≠ 0 then Function.update st.2 f.name g else st.2
  let og := reads.foldl
    (fun m n =>
      if ((reads.count n : Int) - (if g ≠ 0 ∧ n = g then 1 else 0)) > 0
      then Function.update m n false else m) og
  (og, ofc)

/-- The scan phase of `OnceReduction::run`: initialize `onceGlobals` from
the module's globals, `onceFuncs` to null everywhere, then run the
`Scanner` over every function. -/
def scanModule (globals : List Global) (funcs : List Func) :
    (Name → Bool) × (Name → Name) :=
  let og0 : Name → Bool :=
    globals.foldl (fun m g => Function.update m g.name (initOnceGlobal g))
      (fun _ => false)
  funcs.foldl scanFunc (og0, fun _ => 0)

/-- The merge step of `OnceReduction::run`: clear `onceFuncs[f]` whenever
its recorded guard global is no longer `once`. -/
def mergeOnceFuncs (og : Name → Bool) (ofc : Name → Name) : Name → Name :=
  fun n => if ofc n ≠ 0 ∧ ¬og (ofc n) then 0 else ofc n

/-! ## Once Reduction: the per-function optimizer and the driver

The `Optimizer` visits a function through the CFG the traversal framework
delivers.  Only calls and global writes are recorded in block contents
(`BlockInfo::exprs`), and the dominator tree comes from `cfg/domtree.h`;
both are external collaborators of the pass, so blocks and immediate
dominators are inputs here. -/

/-- A set of `once` global names (`std::unordered_set<Name>`). -/
abbrev GSet := Finset Name

/-- An expression recorded in a basic block's contents: the `Optimizer`
only records `global.set`s and calls (anything else in a block's contents
is `WASM_UNREACHABLE`). -/
inductive OExpr where
  | gset (name : Name)
  | call (target : Name)
deriving DecidableEq, Repr

/-- Modelled from the spec: the CFG builder and the dominator-tree
computation (`CFGWalker` and `cfg/domtree.h`) are not part of the two
source files, so a function reaches the `Optimizer` as its list of basic
blocks (contents slots holding the recorded calls and global writes, entry
block first) together with the immediate dominator of each block (`none`
is `DomTree::nonsense`: the entry, or an unreachable block). -/
structure FuncCFG where
  name : Name
  blocks : List (List OExpr)
  iDoms : List (Option Nat)
deriving DecidableEq, Repr

/-- The expression loop of `Optimizer::doWalkFunction` on one block:
process the recorded expressions in order against the `already written`
set, returning the expressions that survive (an expression `nop`ed by
`optimizeOnce` disappears from the contents the next walk records) and the
final set.  A `global.set` of a still-`once` global and a call to a `once`
function insert their guard (or are `nop`ed when it is already present); a
call to any other function unions in `onceGlobalsSetInFuncs[target]`. -/
def procExprs (og : Name → Bool) (ofc : Name → Name) (sm : Name → GSet) :
    List OExpr → GSet → List OExpr × GSet
  | [], s => ([], s)
  | .gset g :: rest, s =>
    if og g then
      if g ∈ s then
        procExprs og ofc sm rest s
      else
        let r := procExprs og ofc sm rest (insert g s)
        (.gset g :: r.1, r.2)
    else
      let r := procExprs og ofc sm rest s
      (.gset g :: r.1, r.2)
  | .call t :: rest, s =>
    if ofc t ≠ 0 then
      if ofc t ∈ s then
        procExprs og ofc sm rest s
      else
        let r := procExprs og ofc sm rest (insert (ofc t) s)
        (.call t :: r.1, r.2)
    else
      let r := procExprs og ofc sm rest (s ∪ sm t)
      (.call t :: r.1, r.2)

/-- The block loop of `Optimizer::doWalkFunction`: go through the blocks in
order (index `i`), tracking `onceGlobalsWrittenVec` as a map from block
index to set.  A block with no immediate dominator is the entry (processed
from the empty set) or unreachable (skipped); otherwise the block starts
from its immediate dominator's set. -/
def procBlocks (og : Name → Bool) (ofc : Name → Name) (sm : Name → GSet)
    (iDoms : List (Option Nat)) :
    List (List OExpr) → Nat → (Nat → GSet) → List (List OExpr) × (Nat → GSet)
  | [], _, vec => ([], vec)
  | b :: rest, i, vec =>
    match iDoms.getD i Option.none with
    | Option.none =>
      if i = 0 then
        let p := procExprs og ofc sm b ∅
        let r := procBlocks og ofc sm iDoms rest (i + 1)
          (Function.update vec 0 p.2)
        (p.1 :: r.1, r.2)
      else
        let r := procBlocks og ofc sm iDoms rest (i + 1) vec
        (b :: r.1, r.2)
    | some par =>
      let p := procExprs og ofc sm b (vec par)
      let r := procBlocks og ofc sm iDoms rest (i + 1)
        (Function.update vec i p.2)
      (p.1 :: r.1, r.2)

/-- `Optimizer::doWalkFunction`: walk the function's blocks and return the
function with its surviving contents, together with the entry block's
final set (what gets stored in `newOnceGlobalsSetInFuncs[func->name]`; a
function with no blocks leaves the pre-initialized empty set). -/
def doWalkFunction (og : Name → Bool) (ofc : Name → Name) (sm : Name → GSet)
    (f : FuncCFG) : FuncCFG × GSet :=
  let r := procBlocks og ofc sm f.iDoms f.blocks 0 (fun _ => ∅)
  ({ f with blocks := r.1 }, r.2 0)

/-- The optimizer state the driver iterates on: the functions (whose
contents the optimizer mutates) and `onceGlobalsSetInFuncs`. -/
abbrev OState := List FuncCFG × (Name → GSet)

/-- One iteration of the driver loop's body: run the `Optimizer` across all
functions against the current `onceGlobalsSetInFuncs`, then swap in the
freshly computed `newOnceGlobalsSetInFuncs` (empty for any name that is
not a function). -/
def stepModule (og : Name → Bool) (ofc : Name → Name) (st : OState) :
    OState :=
  let results := st.1.map (doWalkFunction og ofc st.2)
  (results.map Prod.fst,
   results.foldl (fun m r => Function.update m r.1.name r.2) (fun _ => ∅))

/-- The driver's progress measure: `Σ |onceGlobalsSetInFuncs[f]|` over the
module's functions. -/
def totalSize (fs : List FuncCFG) (m : Name → GSet) : Nat :=
  (fs.map (fun f => (m f.name).card)).sum

/-- The initialization of `onceGlobalsSetInFuncs` before the first
iteration: the singleton of the function's guard for a `once` function,
empty otherwise. -/
def initSetMap (ofc : Name → Name) : Name → GSet :=
  fun n => if ofc n ≠ 0 then {ofc n} else ∅

/-- The `while (1)` loop of `OnceReduction::run`: run an iteration, count
the total number of set `once` globals, and keep going exactly while the
total strictly increased.  Returns the final state and the number of
iterations executed, or `none` if the supplied fuel is insufficient. -/
def driverLoop (og : Name → Bool) (ofc : Name → Name) :
    Nat → OState → Nat → Option (OState × Nat)
  | 0, _, _ => Option.none
  | fuel + 1, st, last =>
    let st1 := stepModule og ofc st
    let curr := totalSize st1.1 st1.2
    if last < curr then
      match driverLoop og ofc fuel st1 curr with
      | some r => some (r.1, r.2 + 1)
      | Option.none => Option.none
    else
      some (st1, 1)

/-! ## Claims about the `PossibleConstantValues` lattice -/

/-- Claim C1: `combine` is documented (and specified) to merge all of the
other object's information, as if every `note` that produced the other
object were replayed onto the receiver.  The code instead returns at the
first `note` that changes anything, dropping the remaining values of the
other object.  At the concrete input `a = Constant{1}`,
`b = Constant{2,3}` (with `b` built by the `note` API, so reachable), the
call yields `Constant{1,2}` and `true`, while replaying `b`'s notes onto
`a` yields the unknown state; the value `3` of `b` is simply lost, so the
result is not an upper bound of `b`. -/
theorem combine_truncates_other_values :
    PossibleConstantValues.combine ⟨true, [.i32 1]⟩ ⟨true, [.i32 2, .i32 3]⟩
      = (⟨true, [.i32 1, .i32 2]⟩, true)
    ∧ ((defaultPCV.note (.i32 2)).1.note (.i32 3)).1
      = ⟨true, [.i32 2, .i32 3]⟩
    ∧ ((PossibleConstantValues.note ⟨true, [.i32 1]⟩ (.i32 2)).1.note
        (.i32 3)).1 = ⟨true, []⟩
    ∧ (PossibleConstantValues.combine ⟨true, [.i32 1]⟩
        ⟨true, [.i32 2, .i32 3]⟩).1
      ≠ ((PossibleConstantValues.note ⟨true, [.i32 1]⟩ (.i32 2)).1.note
          (.i32 3)).1
    ∧ Literal.i32 3 ∉ (PossibleConstantValues.combine ⟨true, [.i32 1]⟩
        ⟨true, [.i32 2, .i32 3]⟩).1.values := by
  decide

/-! ## Claims about the CFP field-get rewriter -/

/-- Claim C6: a field read whose combined lattice is the single constant
`{v}` is replaced by a sequence dropping a `ref.as_non_null` of the
original reference (preserving the trap on null) followed by the constant
`v`. -/
theorem structGet_single_constant_rewrite
    (infos : StructValuesMap) (sl : Nat) (ref : Expression) (refType : Ty)
    (index : Nat) (ty : Ty) (v : Literal)
    (h1 : refType ≠ Ty.unreachable)
    (h2 : getFieldInfo infos refType.getHeapType index = ⟨true, [v]⟩) :
    visitStructGet infos sl (.structGet ref refType index ty) =
      .seq (.drop (.refAsNonNull ref)) (.const v) := by
  simp [visitStructGet, h1, h2, PossibleConstantValues.hasNoted,
    PossibleConstantValues.isConstant, makeConstantExpression,
    PossibleConstantValues.getConstantValues]

/-- Witness for C6 at a concrete input. -/
theorem structGet_single_constant_rewrite_witness :
    visitStructGet [(2, [⟨true, [.i32 42]⟩])] 0
        (.structGet (.globalGet 9 (.ref 2)) (.ref 2) 0 .i32) =
      .seq (.drop (.refAsNonNull (.globalGet 9 (.ref 2)))) (.const (.i32 42)) :=
  structGet_single_constant_rewrite _ _ _ _ _ _ _ (by decide) (by decide)

/-- Claim C7: a field read on a non-unreachable reference whose combined
lattice was never noted (unwritten) is replaced by a sequence dropping the
reference and trapping unconditionally. -/
theorem structGet_unwritten_trap
    (infos : StructValuesMap) (sl : Nat) (ref : Expression) (refType : Ty)
    (index : Nat) (ty : Ty)
    (h1 : refType ≠ Ty.unreachable)
    (h2 : (getFieldInfo infos refType.getHeapType index).hasNoted = false) :
    visitStructGet infos sl (.structGet ref refType index ty) =
      .seq (.drop ref) .unreachable := by
  simp [visitStructGet, h1, h2]

/-- Witness for C7 at a concrete input (no entry for the heap type at
all). -/
theorem structGet_unwritten_trap_witness :
    visitStructGet [] 1 (.structGet (.globalGet 9 (.ref 2)) (.ref 2) 0 .i32) =
      .seq (.drop (.globalGet 9 (.ref 2))) .unreachable :=
  structGet_unwritten_trap _ _ _ _ _ _ (by decide) (by decide)

/-- Claim C8: a field read whose combined lattice holds exactly the two
constants `{v₁, v₂}` becomes the select `(get == v₁) ? v₁ : v₂` retaining
the original read, and this happens exactly when `shrinkLevel = 0` and the
result type is not a reference type; otherwise the read is unchanged. -/
theorem structGet_two_values_select
    (infos : StructValuesMap) (sl : Nat) (ref : Expression) (refType : Ty)
    (index : Nat) (ty : Ty) (v1 v2 : Literal)
    (h1 : refType ≠ Ty.unreachable)
    (h2 : getFieldInfo infos refType.getHeapType index = ⟨true, [v1, v2]⟩) :
    (visitStructGet infos sl (.structGet ref refType index ty) =
        .select
          (.binaryEq ty (.structGet ref refType index ty) (.const v1))
          (.const v1) (.const v2)
      ↔ (sl = 0 ∧ ty.isRef = false))
    ∧ (¬(sl = 0 ∧ ty.isRef = false) →
        visitStructGet infos sl (.structGet ref refType index ty) =
          .structGet ref refType index ty) := by
  constructor
  · constructor
    · intro h
      by_cases hsl : sl = 0
      · by_cases href : ty.isRef
        · exfalso
          simp [visitStructGet, h1, h2, PossibleConstantValues.hasNoted,
            PossibleConstantValues.isConstant, makeConstantExpression,
            PossibleConstantValues.getConstantValues, hsl, href] at h
        · exact ⟨hsl, by simp [href]⟩
      · exfalso
        simp [visitStructGet, h1, h2, PossibleConstantValues.hasNoted,
          PossibleConstantValues.isConstant, makeConstantExpression,
          PossibleConstantValues.getConstantValues,
          Nat.pos_of_ne_zero hsl] at h
    · rintro ⟨hsl, href⟩
      simp [visitStructGet, h1, h2, PossibleConstantValues.hasNoted,
        PossibleConstantValues.isConstant, makeConstantExpression,
        PossibleConstantValues.getConstantValues, hsl, href]
  · intro h
    by_cases hsl : sl = 0
    · have href : ty.isRef = true := by
        rcases Bool.eq_false_or_eq_true ty.isRef with hr | hr
        · exact hr
        · exact absurd ⟨hsl, hr⟩ h
      simp [visitStructGet, h1, h2, PossibleConstantValues.hasNoted,
        PossibleConstantValues.isConstant, makeConstantExpression,
        PossibleConstantValues.getConstantValues, hsl, href]
    · simp [visitStructGet, h1, h2, PossibleConstantValues.hasNoted,
        PossibleConstantValues.isConstant, makeConstantExpression,
        PossibleConstantValues.getConstantValues,
        Nat.pos_of_ne_zero hsl]

/-- Witness for C8 at concrete inputs: the select fires with shrink level
`0` on an `i32` field, and the same read is unchanged with shrink level
`1`. -/
theorem structGet_two_values_select_witness :
    (visitStructGet [(2, [⟨true, [.i32 10, .i32 20]⟩])] 0
        (.structGet (.globalGet 9 (.ref 2)) (.ref 2) 0 .i32) =
      .select
        (.binaryEq .i32
          (.structGet (.globalGet 9 (.ref 2)) (.ref 2) 0 .i32)
          (.const (.i32 10)))
        (.const (.i32 10)) (.const (.i32 20)))
    ∧ (visitStructGet [(2, [⟨true, [.i32 10, .i32 20]⟩])] 1
        (.structGet (.globalGet 9 (.ref 2)) (.ref 2) 0 .i32) =
      .structGet (.globalGet 9 (.ref 2)) (.ref 2) 0 .i32) := by
  constructor
  · exact (structGet_two_values_select [(2, [⟨true, [.i32 10, .i32 20]⟩])] 0
      (.globalGet 9 (.ref 2)) (.ref 2) 0 .i32 (.i32 10) (.i32 20)
      (by decide) (by decide)).1.mpr (by decide)
  · exact (structGet_two_values_select [(2, [⟨true, [.i32 10, .i32 20]⟩])] 1
      (.globalGet 9 (.ref 2)) (.ref 2) 0 .i32 (.i32 10) (.i32 20)
      (by decide) (by decide)).2 (by decide)

/-- Claim C9: with the cap `MaxConstantValues = 2`, noting three pairwise
distinct literals drives the lattice to the unknown state, and a field
read whose lattice is unknown is left unchanged. -/
theorem three_distinct_notes_unknown
    (a b c : Literal) (hab : a ≠ b) (hac : a ≠ c) (hbc : b ≠ c)
    (infos : StructValuesMap) (sl : Nat) (ref : Expression) (refType : Ty)
    (index : Nat) (ty : Ty)
    (h1 : refType ≠ Ty.unreachable)
    (h2 : getFieldInfo infos refType.getHeapType index = ⟨true, []⟩) :
    (((defaultPCV.note a).1.note b).1.note c).1 = ⟨true, []⟩
    ∧ (((defaultPCV.note a).1.note b).1.note c).1.hasNoted = true
    ∧ (((defaultPCV.note a).1.note b).1.note c).1.isConstant = false
    ∧ visitStructGet infos sl (.structGet ref refType index ty) =
        .structGet ref refType index ty := by
  have hchain : (((defaultPCV.note a).1.note b).1.note c).1 = ⟨true, []⟩ := by
    simp [defaultPCV, PossibleConstantValues.note,
      PossibleConstantValues.isConstant, PossibleConstantValues.noteUnknown,
      PossibleConstantValues.MaxConstantValues, Ne.symm hab, Ne.symm hac,
      Ne.symm hbc]
  refine ⟨hchain, by simp [hchain, PossibleConstantValues.hasNoted],
    by simp [hchain, PossibleConstantValues.isConstant], ?_⟩
  simp [visitStructGet, h1, h2, PossibleConstantValues.hasNoted,
    PossibleConstantValues.isConstant]

/-- Witness for C9 at a concrete input. -/
theorem three_distinct_notes_unknown_witness :
    (((defaultPCV.note (.i32 1)).1.note (.i32 2)).1.note (.i32 3)).1
      = ⟨true, []⟩
    ∧ (((defaultPCV.note (.i32 1)).1.note (.i32 2)).1.note
        (.i32 3)).1.hasNoted = true
    ∧ (((defaultPCV.note (.i32 1)).1.note (.i32 2)).1.note
        (.i32 3)).1.isConstant = false
    ∧ visitStructGet [(2, [⟨true, []⟩])] 0
        (.structGet (.globalGet 9 (.ref 2)) (.ref 2) 0 .i32) =
      .structGet (.globalGet 9 (.ref 2)) (.ref 2) 0 .i32 :=
  three_distinct_notes_unknown _ _ _ (by decide) (by decide) (by decide)
    _ _ _ _ _ _ (by decide) (by decide)

/-! ## Claims about the Once Reduction scanner -/

/-- The `once` prologue pattern as the specification words it: no params,
no results, and the top-level body is a block whose first statement is an
`if` on `global.get G` whose then-arm is a return with no else-arm, and
whose second statement is a `global.set` of the same `G` whose static type
is not the unreachable type. -/
def oncePatternSpec (f : Func) (G : Name) : Prop :=
  f.params = Ty.none ∧ f.results = Ty.none ∧
  ∃ (condTy : Ty) (v : Expression) (sty : Ty) (rest : List Expression),
    f.body = .block (.ifElse (.globalGet G condTy) .ret Option.none ::
      .globalSet G v sty :: rest) ∧
    sty ≠ Ty.unreachable

/-- `isRet` recognizes exactly the return expression. -/
theorem isRet_iff (e : Expression) : e.isRet = true ↔ e = .ret := by
  cases e <;> simp [Expression.isRet]

/-- The structural characterization of `getOnceGlobal`: it returns the
non-null name `G` exactly on bodies matching the spec's pattern. -/
theorem getOnceGlobal_eq_iff (body : Expression) (G : Name) (hG : G ≠ 0) :
    getOnceGlobal body = G ↔
    ∃ (condTy : Ty) (v : Expression) (sty : Ty) (rest : List Expression),
      body = .block (.ifElse (.globalGet G condTy) .ret Option.none ::
        .globalSet G v sty :: rest) ∧
      sty ≠ Ty.unreachable := by
  constructor
  · intro h
    cases body
    case block list =>
      rcases list with _ | ⟨first, _ | ⟨second, rest⟩⟩
      · exact absurd (h.symm.trans rfl) hG
      · exact absurd (h.symm.trans rfl) hG
      cases first
      case ifElse cond ifTrue ifFalse =>
        cases cond
        case globalGet g gty =>
          cases second
          case globalSet sn v sty =>
            have h1 :
                (if !ifTrue.isRet || ifFalse.isSome then (0 : Name)
                 else if sn ≠ g ∨ sty = Ty.unreachable then (0 : Name)
                 else g) = G := h
            rcases ifFalse with _ | e
            · cases hret : ifTrue.isRet
              · rw [if_pos (by simp [hret])] at h1
                exact absurd h1.symm hG
              · rw [if_neg (by simp [hret])] at h1
                have hT : ifTrue = .ret := (isRet_iff _).mp hret
                subst hT
                by_cases hsn : sn ≠ g ∨ sty = Ty.unreachable
                · rw [if_pos hsn] at h1
                  exact absurd h1.symm hG
                · rw [if_neg hsn] at h1
                  push_neg at hsn
                  obtain ⟨hsn1, hsn2⟩ := hsn
                  subst hsn1
                  subst h1
                  exact ⟨gty, v, sty, rest, rfl, hsn2⟩
            · rw [if_pos (by simp)] at h1
              exact absurd h1.symm hG
          all_goals
            refine absurd (h.symm.trans ?_) hG
            simp [getOnceGlobal]
        all_goals exact absurd (h.symm.trans rfl) hG
      all_goals exact absurd (h.symm.trans rfl) hG
    all_goals exact absurd (h.symm.trans rfl) hG
  · rintro ⟨condTy, v, sty, rest, rfl, hsty⟩
    simp [getOnceGlobal, Expression.isRet, hsty]

/-- Claim C3: a function is tentatively recorded as `once` with guard `G`
(`onceFuncs[f] = G`) exactly when it has no params and no results and its
body matches the recognized prologue pattern, with a reachable write of
the same global. -/
theorem recorded_once_iff (f : Func) (G : Name) (hG : G ≠ 0) :
    recordedOnceGlobal f = G ↔ oncePatternSpec f G := by
  rw [recordedOnceGlobal, oncePatternSpec]
  by_cases hp : f.params = Ty.none ∧ f.results = Ty.none
  · rw [if_pos hp, getOnceGlobal_eq_iff f.body G hG]
    constructor
    · intro h; exact ⟨hp.1, hp.2, h⟩
    · rintro ⟨_, _, h⟩; exact h
  · rw [if_neg hp]
    constructor
    · intro h; exact absurd h.symm hG
    · rintro ⟨h1, h2, _⟩; exact absurd ⟨h1, h2⟩ hp

/-- Witness for C3 at a concrete input: the minimal `once` function. -/
theorem recorded_once_iff_witness :
    recordedOnceGlobal
      ⟨1, Ty.none, Ty.none,
        .block [.ifElse (.globalGet 2 .i32) .ret Option.none,
          .globalSet 2 (.const (.i32 1)) Ty.none]⟩ = 2
    ∧ oncePatternSpec
      ⟨1, Ty.none, Ty.none,
        .block [.ifElse (.globalGet 2 .i32) .ret Option.none,
          .globalSet 2 (.const (.i32 1)) Ty.none]⟩ 2 := by
  constructor
  · exact (recorded_once_iff _ 2 (by decide)).mpr
      ⟨rfl, rfl, .i32, .const (.i32 1), Ty.none, [], rfl, by decide⟩
  · exact (recorded_once_iff _ 2 (by decide)).mp rfl

/-- Counterexample to claim C4 as stated: a write of a zero constant of
non-integer type (here an `f32` zero, which is also a non-integer value)
does not force `onceGlobals[g] = false` — the scanner returns before
demoting because the value's type is not an integer. -/
theorem nonInteger_zero_write_not_demoted :
    scannerVisitGlobalSet (fun _ => true) 5 (.const (.f32 0)) 5 = true
    ∧ (Expression.const (.f32 0)).isConst = true
    ∧ (Expression.const (.f32 0)).typeOf.isInteger = false := by
  decide

/-- Claim C4 (amended): a write to a global `g` whose value has integer
type and is either non-constant or a constant `≤ 0` forces
`onceGlobals[g] = false`; a write whose value's type is not an integer
(including an unreachable write) leaves the map unchanged. -/
theorem scanner_global_set_demotion :
    (∀ (og : Name → Bool) (name : Name) (value : Expression),
      value.typeOf.isInteger = true →
      ((∀ c, value ≠ .const c) ∨
        (∃ c, value = .const c ∧ c.getInteger ≤ 0)) →
      scannerVisitGlobalSet og name value name = false)
    ∧ (∀ (og : Name → Bool) (name : Name) (value : Expression),
      value.typeOf.isInteger = false →
      scannerVisitGlobalSet og name value = og) := by
  constructor
  · intro og name value hint hbad
    cases value
    case const c =>
      rcases hbad with hb | ⟨c2, hc2, hle⟩
      · exact absurd rfl (hb c)
      · have hc : c = c2 := by injection hc2
        subst hc
        show (if ¬(Expression.const c).typeOf.isInteger then og
              else if c.getInteger > 0 then og
              else Function.update og name false) name = false
        rw [if_neg (by simp [hint]), if_neg (by omega)]
        simp [Function.update]
    all_goals
      delta scannerVisitGlobalSet
      rw [if_neg (by simp_all)]
      simp [Function.update]
  · intro og name value hint
    delta scannerVisitGlobalSet
    rw [if_pos (by simp [hint])]

/-- Witness for the amended C4: an integer zero write is demoted, a
non-constant integer write is demoted, and an `f64` write is ignored. -/
theorem scanner_global_set_demotion_witness :
    scannerVisitGlobalSet (fun _ => true) 5 (.const (.i32 0)) 5 = false
    ∧ scannerVisitGlobalSet (fun _ => true) 5 (.globalGet 9 .i64) 5 = false
    ∧ scannerVisitGlobalSet (fun _ => true) 5 (.const (.f64 3)) =
        (fun _ => true) := by
  refine ⟨?_, ?_, ?_⟩
  · exact scanner_global_set_demotion.1 _ _ _ (by decide)
      (Or.inr ⟨.i32 0, rfl, by decide⟩)
  · exact scanner_global_set_demotion.1 _ _ _ (by decide)
      (Or.inl (by intro c h; exact Expression.noConfusion h))
  · exact scanner_global_set_demotion.2 _ _ _ (by decide)

/-- Claim C2 (amended): after the scan-and-merge phase and the
initialization of `onceGlobalsSetInFuncs`, if `onceFuncs[f] = g` (with `g`
non-null) then `onceGlobals[g] = true` and `g` is in the initialized
`onceGlobalsSetInFuncs[f]`.  (`onceFuncs` and `onceGlobals` are never
modified by the later iterations, so the first conjunct persists; the
membership of `g` in `onceGlobalsSetInFuncs[f]` can be lost at the first
swap, see the counterexample.) -/
theorem once_invariant_after_merge_init (og : Name → Bool) (ofc : Name → Name)
    (f g : Name) (hg : g ≠ 0) (h : mergeOnceFuncs og ofc f = g) :
    og g = true ∧ g ∈ initSetMap (mergeOnceFuncs og ofc) f := by
  rw [mergeOnceFuncs] at h
  by_cases hc : ofc f ≠ 0 ∧ ¬og (ofc f)
  · rw [if_pos hc] at h
    exact absurd h.symm hg
  · rw [if_neg hc] at h
    push_neg at hc
    subst h
    constructor
    · by_cases h0 : ofc f = 0
      · exact absurd h0 hg
      · simpa using hc h0
    · have hm : mergeOnceFuncs og ofc f = ofc f := by
        rw [mergeOnceFuncs, if_neg (by push_neg; exact hc)]
      rw [initSetMap, hm, if_pos hg]
      exact Finset.mem_singleton_self _

/-- Witness for the amended C2 at a concrete merged state. -/
theorem once_invariant_after_merge_init_witness :
    (fun n => n == 1) 1 = true
    ∧ (1 : Name) ∈ initSetMap
        (mergeOnceFuncs (fun n => n == 1) (fun n => if n = 2 then 1 else 0)) 2 :=
  once_invariant_after_merge_init (fun n => n == 1)
    (fun n => if n = 2 then 1 else 0) 2 1 (by decide) (by decide)

/-- Counterexample to claim C2 as stated: the minimal `once` function
(named `1`, guarding global `1`) passes the scan and merge — onceFuncs
maps it to its guard, the guard is `once`, and the initialized
`onceGlobalsSetInFuncs` holds the guard — but after the first iteration's
swap the function's entry in the map is empty: the guard write sits in the
basic block after the prologue `if`, not in the entry block, so the entry
block's set (which is what the swap stores) no longer contains the guard.
The CFG is the one the spec's §4.7 produces for the prologue: entry block
(the condition, nothing recorded), the return block, and the fall-through
block holding the guard write, both dominated by the entry. -/
theorem once_setinfuncs_invariant_counterexample :
    (mergeOnceFuncs
        (scanModule [⟨1, .i32, false, .const (.i32 0)⟩]
          [⟨1, Ty.none, Ty.none,
            .block [.ifElse (.globalGet 1 .i32) .ret Option.none,
              .globalSet 1 (.const (.i32 1)) Ty.none]⟩]).1
        (scanModule [⟨1, .i32, false, .const (.i32 0)⟩]
          [⟨1, Ty.none, Ty.none,
            .block [.ifElse (.globalGet 1 .i32) .ret Option.none,
              .globalSet 1 (.const (.i32 1)) Ty.none]⟩]).2) 1 = 1
    ∧ (scanModule [⟨1, .i32, false, .const (.i32 0)⟩]
        [⟨1, Ty.none, Ty.none,
          .block [.ifElse (.globalGet 1 .i32) .ret Option.none,
            .globalSet 1 (.const (.i32 1)) Ty.none]⟩]).1 1 = true
    ∧ initSetMap
        (mergeOnceFuncs
          (scanModule [⟨1, .i32, false, .const (.i32 0)⟩]
            [⟨1, Ty.none, Ty.none,
              .block [.ifElse (.globalGet 1 .i32) .ret Option.none,
                .globalSet 1 (.const (.i32 1)) Ty.none]⟩]).1
          (scanModule [⟨1, .i32, false, .const (.i32 0)⟩]
            [⟨1, Ty.none, Ty.none,
              .block [.ifElse (.globalGet 1 .i32) .ret Option.none,
                .globalSet 1 (.const (.i32 1)) Ty.none]⟩]).2) 1 = {1}
    ∧ (1 : Name) ∉
      (stepModule
        (scanModule [⟨1, .i32, false, .const (.i32 0)⟩]
          [⟨1, Ty.none, Ty.none,
            .block [.ifElse (.globalGet 1 .i32) .ret Option.none,
              .globalSet 1 (.const (.i32 1)) Ty.none]⟩]).1
        (mergeOnceFuncs
          (scanModule [⟨1, .i32, false, .const (.i32 0)⟩]
            [⟨1, Ty.none, Ty.none,
              .block [.ifElse (.globalGet 1 .i32) .ret Option.none,
                .globalSet 1 (.const (.i32 1)) Ty.none]⟩]).1
          (scanModule [⟨1, .i32, false, .const (.i32 0)⟩]
            [⟨1, Ty.none, Ty.none,
              .block [.ifElse (.globalGet 1 .i32) .ret Option.none,
                .globalSet 1 (.const (.i32 1)) Ty.none]⟩]).2)
        ([⟨1, [[], [], [.gset 1]], [Option.none, some 0, some 0]⟩],
          initSetMap
            (mergeOnceFuncs
              (scanModule [⟨1, .i32, false, .const (.i32 0)⟩]
                [⟨1, Ty.none, Ty.none,
                  .block [.ifElse (.globalGet 1 .i32) .ret Option.none,
                    .globalSet 1 (.const (.i32 1)) Ty.none]⟩]).1
              (scanModule [⟨1, .i32, false, .const (.i32 0)⟩]
                [⟨1, Ty.none, Ty.none,
                  .block [.ifElse (.globalGet 1 .i32) .ret Option.none,
                    .globalSet 1 (.const (.i32 1)) Ty.none]⟩]).2))).2 1 := by
  decide

/-- `scannerVisitGlobalSet` either leaves the map unchanged or demotes the
written global. -/
theorem scannerVisitGlobalSet_cases (og : Name → Bool) (name : Name)
    (value : Expression) :
    scannerVisitGlobalSet og name value = og ∨
    scannerVisitGlobalSet og name value = Function.update og name false := by
  delta scannerVisitGlobalSet
  split
  · exact Or.inl rfl
  · split
    · split
      · exact Or.inl rfl
      · exact Or.inr rfl
    · exact Or.inr rfl

/-- A fold whose every step only turns entries to `false` only turns
entries to `false`. -/
theorem foldl_update_false_mono {α : Type} (l : List α)
    (step : (Name → Bool) → α → (Name → Bool))
    (hstep : ∀ m x n, (step m x) n = true → m n = true) :
    ∀ (m : Name → Bool) (n : Name), (l.foldl step m) n = true → m n = true := by
  induction l with
  | nil => intro m n h; exact h
  | cons x rest ih => intro m n h; exact hstep _ _ _ (ih (step m x) n h)

/-- The `Optimizer` never touches a write to a global that is not `once`:
the count of `global.set g` expressions surviving the walk is unchanged
when `onceGlobals[g] = false`. -/
theorem procExprs_keeps_gset (og : Name → Bool) (ofc : Name → Name)
    (sm : Name → GSet) (g : Name) (hog : og g = false) :
    ∀ (es : List OExpr) (s : GSet),
      (procExprs og ofc sm es s).1.count (OExpr.gset g) =
        es.count (OExpr.gset g) := by
  intro es
  induction es with
  | nil => intro s; rfl
  | cons e rest ih =>
    intro s
    match e with
    | .gset g2 =>
      by_cases hog2 : og g2
      · have hne : g2 ≠ g := by
          intro hh
          rw [hh, hog] at hog2
          exact Bool.noConfusion hog2
        by_cases hmem : g2 ∈ s
        · simp [procExprs, hog2, hmem, ih, List.count_cons, hne]
        · simp [procExprs, hog2, hmem, ih, List.count_cons, hne]
      · simp [procExprs, hog2, ih, List.count_cons]
    | .call t =>
      by_cases ht : ofc t ≠ 0
      · by_cases hmem : ofc t ∈ s
        · simp [procExprs, ht, hmem, ih, List.count_cons]
        · simp [procExprs, ht, hmem, ih, List.count_cons]
      · simp [procExprs, ht, ih, List.count_cons]

/-- Claim C10: `onceGlobals[g]` starts `false` for every global that is
not integer-typed, or imported, or not constant-initialized; the scanner
only ever moves entries from `true` to `false`; after the merge no
function's recorded guard is a demoted global (so no call is guarded by
it); and the optimizer leaves every write to a demoted global in place. -/
theorem onceGlobals_init_and_monotone :
    (∀ glob : Global,
      ¬(glob.ty.isInteger = true ∧ glob.imported = false ∧
          glob.init.isConst = true) →
      initOnceGlobal glob = false)
    ∧ (∀ (og : Name → Bool) (name : Name) (value : Expression) (n : Name),
        scannerVisitGlobalSet og name value n = true → og n = true)
    ∧ (∀ (st : (Name → Bool) × (Name → Name)) (f : Func) (n : Name),
        (scanFunc st f).1 n = true → st.1 n = true)
    ∧ (∀ (og : Name → Bool) (ofc : Name → Name) (f g : Name), g ≠ 0 →
        og g = false → mergeOnceFuncs og ofc f ≠ g)
    ∧ (∀ (og : Name → Bool) (ofc : Name → Name) (sm : Name → GSet)
        (g : Name) (es : List OExpr) (s : GSet), og g = false →
        (procExprs og ofc sm es s).1.count (OExpr.gset g) =
          es.count (OExpr.gset g)) := by
  have hvgs : ∀ (og : Name → Bool) (name : Name) (value : Expression)
      (n : Name), scannerVisitGlobalSet og name value n = true → og n = true := by
    intro og name value n h
    rcases scannerVisitGlobalSet_cases og name value with hc | hc <;>
      rw [hc] at h
    · exact h
    · rw [Function.update_apply] at h
      split at h
      · exact absurd h (by simp)
      · exact h
  refine ⟨?_, hvgs, ?_, ?_, ?_⟩
  · intro glob h
    cases hti : glob.ty.isInteger <;> cases him : glob.imported <;>
      cases hic : glob.init.isConst <;> simp_all [initOnceGlobal]
  · intro st f n h
    have h1 : ((collectGets f.body).foldl
        (fun m nn =>
          if (((collectGets f.body).count nn : Int) -
              (if recordedOnceGlobal f ≠ 0 ∧ nn = recordedOnceGlobal f
               then 1 else 0)) > 0
          then Function.update m nn false else m)
        ((collectSets f.body).foldl
          (fun m p => scannerVisitGlobalSet m p.1 p.2) st.1)) n = true := h
    have h2 := foldl_update_false_mono _ _
      (by
        intro m x nn hh
        by_cases hcond : (((collectGets f.body).count x : Int) -
            (if recordedOnceGlobal f ≠ 0 ∧ x = recordedOnceGlobal f
             then 1 else 0)) > 0
        · rw [if_pos hcond, Function.update_apply] at hh
          split at hh
          · exact absurd hh (by simp)
          · exact hh
        · rw [if_neg hcond] at hh
          exact hh) _ _ h1
    exact foldl_update_false_mono _ _
      (fun m p nn hh => hvgs m p.1 p.2 nn hh) _ _ h2
  · intro og ofc f g hg hog h
    rw [mergeOnceFuncs] at h
    by_cases hc : ofc f ≠ 0 ∧ ¬og (ofc f)
    · rw [if_pos hc] at h
      exact hg h.symm
    · rw [if_neg hc] at h
      push_neg at hc
      subst h
      by_cases h0 : ofc f = 0
      · exact hg h0
      · rw [hc h0] at hog
        exact Bool.noConfusion hog
  · intro og ofc sm g es s hog
    exact procExprs_keeps_gset og ofc sm g hog es s

/-- Witness for C10: concrete instances of every conjunct. -/
theorem onceGlobals_init_and_monotone_witness :
    initOnceGlobal ⟨7, Ty.f64, false, .const (.f64 0)⟩ = false
    ∧ (fun _ => true) 5 = true
    ∧ (⟨fun _ => true, fun _ => 0⟩ :
        (Name → Bool) × (Name → Name)).1 5 = true
    ∧ mergeOnceFuncs (fun _ => false) (fun _ => 3) 4 ≠ 3
    ∧ (procExprs (fun _ => false) (fun _ => 0) (fun _ => ∅)
        [OExpr.gset 3] ∅).1.count (OExpr.gset 3) =
      [OExpr.gset 3].count (OExpr.gset 3) := by
  refine ⟨?_, ?_, ?_, ?_, ?_⟩
  · exact onceGlobals_init_and_monotone.1 _ (by decide)
  · exact onceGlobals_init_and_monotone.2.1 (fun _ => true) 5
      (.const (.i32 7)) 5 (by decide)
  · exact onceGlobals_init_and_monotone.2.2.1 ⟨fun _ => true, fun _ => 0⟩
      ⟨1, Ty.none, Ty.none, .nop⟩ 5 (by decide)
  · exact onceGlobals_init_and_monotone.2.2.2.1 (fun _ => false) (fun _ => 3)
      4 3 (by decide) rfl
  · exact onceGlobals_init_and_monotone.2.2.2.2 (fun _ => false) (fun _ => 0)
      (fun _ => ∅) 3 [OExpr.gset 3] ∅ rfl

/-! ## The fixed-point driver: monotonicity and termination (claim C5)

The key fact behind the driver's `assert(curr >= last)` is that re-running
the optimizer on the surviving expressions with a (pointwise, on non-once
functions) larger `onceGlobalsSetInFuncs` produces larger sets: an
expression `nop`ed in one iteration was preceded by an expression or call
that justifies the same set entry in the next iteration. -/

/-- Re-running the expression loop on the surviving expressions with a
larger starting set and a `onceGlobalsSetInFuncs` that is larger on every
non-`once` function yields a larger final set. -/
theorem procExprs_mono (og : Name → Bool) (ofc : Name → Name)
    (sm sm' : Name → GSet)
    (hsm : ∀ t, ofc t = 0 → sm t ⊆ sm' t) :
    ∀ (es : List OExpr) (s1 s2 : GSet), s1 ⊆ s2 →
      (procExprs og ofc sm es s1).2 ⊆
        (procExprs og ofc sm' (procExprs og ofc sm es s1).1 s2).2 := by
  intro es
  induction es with
  | nil =>
    intro s1 s2 h
    exact h
  | cons e rest ih =>
    intro s1 s2 h
    match e with
    | .gset g =>
      by_cases hog : og g
      · by_cases hmem : g ∈ s1
        · simp only [procExprs, hog, hmem, if_true]
          exact ih s1 s2 h
        · simp only [procExprs, hog, hmem, if_true, if_false]
          by_cases hmem2 : g ∈ s2
          · simp only [hmem2, if_true]
            exact ih (insert g s1) s2
              (Finset.insert_subset_iff.mpr ⟨hmem2, h⟩)
          · simp only [hmem2, if_false]
            exact ih (insert g s1) (insert g s2)
              (Finset.insert_subset_insert _ h)
      · simp only [procExprs, hog, if_false]
        exact ih s1 s2 h
    | .call t =>
      by_cases ht : ofc t = 0
      · have ht' : ¬(ofc t ≠ 0) := by simp [ht]
        simp only [procExprs, if_neg ht']
        exact ih (s1 ∪ sm t) (s2 ∪ sm' t)
          (Finset.union_subset_union h (hsm t ht))
      · by_cases hmem : ofc t ∈ s1
        · simp only [procExprs, if_pos ht, if_pos hmem]
          exact ih s1 s2 h
        · simp only [procExprs, if_pos ht, if_neg hmem]
          by_cases hmem2 : ofc t ∈ s2
          · simp only [if_pos hmem2]
            exact ih (insert (ofc t) s1) s2
              (Finset.insert_subset_iff.mpr ⟨hmem2, h⟩)
          · simp only [if_neg hmem2]
            exact ih (insert (ofc t) s1) (insert (ofc t) s2)
              (Finset.insert_subset_insert _ h)

/-- Every name the expression loop inserts is a `once` global (assuming
the map entries it unions are). -/
theorem procExprs_subsetO (og : Name → Bool) (ofc : Name → Name)
    (sm : Name → GSet) (O : Finset Name)
    (hog : ∀ g, og g = true → g ∈ O)
    (hofc : ∀ t, ofc t ≠ 0 → ofc t ∈ O)
    (hsm : ∀ t, sm t ⊆ O) :
    ∀ (es : List OExpr) (s : GSet), s ⊆ O →
      (procExprs og ofc sm es s).2 ⊆ O := by
  intro es
  induction es with
  | nil => intro s h; exact h
  | cons e rest ih =>
    intro s h
    match e with
    | .gset g =>
      by_cases hg : og g
      · by_cases hmem : g ∈ s
        · simp only [procExprs, hg, hmem, if_true]
          exact ih s h
        · simp only [procExprs, hg, hmem, if_true, if_false]
          exact ih _ (Finset.insert_subset_iff.mpr ⟨hog g hg, h⟩)
      · simp only [procExprs, hg, if_false]
        exact ih s h
    | .call t =>
      by_cases ht : ofc t = 0
      · have ht' : ¬(ofc t ≠ 0) := by simp [ht]
        simp only [procExprs, if_neg ht']
        exact ih _ (Finset.union_subset h (hsm t))
      · by_cases hmem : ofc t ∈ s
        · simp only [procExprs, if_pos ht, if_pos hmem]
          exact ih s h
        · simp only [procExprs, if_pos ht, if_neg hmem]
          exact ih _ (Finset.insert_subset_iff.mpr ⟨hofc t ht, h⟩)

/-- Re-running the block loop on the surviving blocks with pointwise
larger accumulated sets yields pointwise larger accumulated sets. -/
theorem procBlocks_mono (og : Name → Bool) (ofc : Name → Name)
    (sm sm' : Name → GSet) (iDoms : List (Option Nat))
    (hsm : ∀ t, ofc t = 0 → sm t ⊆ sm' t) :
    ∀ (bs : List (List OExpr)) (i : Nat) (v1 v2 : Nat → GSet),
      (∀ j, v1 j ⊆ v2 j) →
      ∀ j, (procBlocks og ofc sm iDoms bs i v1).2 j ⊆
        (procBlocks og ofc sm' iDoms
          (procBlocks og ofc sm iDoms bs i v1).1 i v2).2 j := by
  intro bs
  induction bs with
  | nil => intro i v1 v2 hv j; exact hv j
  | cons b rest ih =>
    intro i v1 v2 hv j
    rcases hd : iDoms.getD i Option.none with _ | par
    · by_cases hi : i = 0
      · subst hi
        simp only [procBlocks, hd, if_true]
        refine ih 1 _ _ ?_ j
        intro j2
        by_cases hj : j2 = 0
        · subst hj
          simp only [Function.update_same]
          exact procExprs_mono og ofc sm sm' hsm b ∅ ∅ (by rfl)
        · rw [Function.update_noteq hj, Function.update_noteq hj]
          exact hv j2
      · simp only [procBlocks, hd, hi, if_false]
        exact ih (i + 1) v1 v2 hv j
    · simp only [procBlocks, hd]
      refine ih (i + 1) _ _ ?_ j
      intro j2
      by_cases hj : j2 = i
      · subst hj
        simp only [Function.update_same]
        exact procExprs_mono og ofc sm sm' hsm b (v1 par) (v2 par) (hv par)
      · rw [Function.update_noteq hj, Function.update_noteq hj]
        exact hv j2

/-- Every set the block loop accumulates stays inside the `once` globals. -/
theorem procBlocks_subsetO (og : Name → Bool) (ofc : Name → Name)
    (sm : Name → GSet) (O : Finset Name) (iDoms : List (Option Nat))
    (hog : ∀ g, og g = true → g ∈ O)
    (hofc : ∀ t, ofc t ≠ 0 → ofc t ∈ O)
    (hsm : ∀ t, sm t ⊆ O) :
    ∀ (bs : List (List OExpr)) (i : Nat) (vec : Nat → GSet),
      (∀ j, vec j ⊆ O) →
      ∀ j, (procBlocks og ofc sm iDoms bs i vec).2 j ⊆ O := by
  intro bs
  induction bs with
  | nil => intro i vec hv j; exact hv j
  | cons b rest ih =>
    intro i vec hv j
    rcases hd : iDoms.getD i Option.none with _ | par
    · by_cases hi : i = 0
      · subst hi
        simp only [procBlocks, hd, if_true]
        refine ih 1 _ ?_ j
        intro j2
        by_cases hj : j2 = 0
        · subst hj
          simp only [Function.update_same]
          exact procExprs_subsetO og ofc sm O hog hofc hsm b ∅
            (Finset.empty_subset O)
        · rw [Function.update_noteq hj]
          exact hv j2
      · simp only [procBlocks, hd, hi, if_false]
        exact ih (i + 1) vec hv j
    · simp only [procBlocks, hd]
      refine ih (i + 1) _ ?_ j
      intro j2
      by_cases hj : j2 = i
      · subst hj
        simp only [Function.update_same]
        exact procExprs_subsetO og ofc sm O hog hofc hsm b (vec par) (hv par)
      · rw [Function.update_noteq hj]
        exact hv j2

/-- Blocks processed from index `1` on never write the entry slot of the
accumulator. -/
theorem procBlocks_vec0 (og : Name → Bool) (ofc : Name → Name)
    (sm : Name → GSet) (iDoms : List (Option Nat)) :
    ∀ (bs : List (List OExpr)) (i : Nat) (vec : Nat → GSet), 1 ≤ i →
      (procBlocks og ofc sm iDoms bs i vec).2 0 = vec 0 := by
  intro bs
  induction bs with
  | nil => intro i vec hi; rfl
  | cons b rest ih =>
    intro i vec hi
    rcases hd : iDoms.getD i Option.none with _ | par
    · have hi0 : ¬i = 0 := by omega
      simp only [procBlocks, hd, hi0, if_false]
      exact ih (i + 1) vec (by omega)
    · simp only [procBlocks, hd]
      rw [ih (i + 1) _ (by omega)]
      exact Function.update_noteq (by omega) _ vec

/-- A `once` function's CFG has an entry block with no recorded contents
and no immediate dominator; walking such a function always produces the
empty entry set, and the walked function keeps those properties (and its
name). -/
theorem doWalk_entry_empty (og : Name → Bool) (ofc : Name → Name)
    (sm : Name → GSet) (f : FuncCFG)
    (hb : f.blocks.getD 0 [] = [])
    (hd : f.iDoms.getD 0 Option.none = Option.none) :
    (doWalkFunction og ofc sm f).2 = ∅
    ∧ (doWalkFunction og ofc sm f).1.blocks.getD 0 [] = []
    ∧ (doWalkFunction og ofc sm f).1.iDoms.getD 0 Option.none = Option.none
    ∧ (doWalkFunction og ofc sm f).1.name = f.name := by
  rcases hfb : f.blocks with _ | ⟨b, rest⟩
  · refine ⟨?_, by simp [doWalkFunction, hfb, procBlocks], hd, rfl⟩
    simp [doWalkFunction, hfb, procBlocks]
  · have hb0 : b = [] := by
      rw [hfb] at hb
      exact hb
    subst hb0
    refine ⟨?_, ?_, hd, rfl⟩
    · show (procBlocks og ofc sm f.iDoms f.blocks 0 (fun _ => ∅)).2 0 = ∅
      rw [hfb, procBlocks]
      simp only [hd]
      rw [if_pos trivial, procBlocks_vec0 og ofc sm f.iDoms rest 1 _ (by omega)]
      have hpe : (procExprs og ofc sm ([] : List OExpr) ∅) = ([], ∅) := rfl
      rw [hpe]
      simp [Function.update]
    · show (procBlocks og ofc sm f.iDoms f.blocks 0 (fun _ => ∅)).1.getD 0 []
        = []
      rw [hfb, procBlocks]
      simp only [hd]
      rw [if_pos trivial]
      rfl

/-- A fold of updates at names not containing `n` does not change the
value at `n`. -/
theorem foldUpd_apply_not_mem (rs : List (FuncCFG × GSet)) (n : Name) :
    ∀ init : Name → GSet, n ∉ rs.map (fun r => r.1.name) →
    (rs.foldl (fun m r => Function.update m r.1.name r.2) init) n = init n := by
  induction rs with
  | nil => intro init _; rfl
  | cons r rest ih =>
    intro init h
    have hn : n ≠ r.1.name := by
      intro hh
      exact h (by simp [hh])
    rw [List.foldl_cons, ih _ (by
      intro hh
      simp only [List.map_cons, List.mem_cons] at h
      exact h (Or.inr hh))]
    exact Function.update_noteq hn _ init

/-- With pairwise distinct names, the fold of updates looks up each
member's value. -/
theorem foldUpd_apply_mem (f : FuncCFG) (s : GSet) :
    ∀ (rs : List (FuncCFG × GSet)) (init : Name → GSet),
    (rs.map (fun r => r.1.name)).Nodup → (f, s) ∈ rs →
    (rs.foldl (fun m r => Function.update m r.1.name r.2) init) f.name = s := by
  intro rs
  induction rs with
  | nil => intro init _ hmem; exact absurd hmem (List.not_mem_nil _)
  | cons r rest ih =>
    intro init hnd hmem
    simp only [List.map_cons, List.nodup_cons] at hnd
    rcases List.mem_cons.mp hmem with hh | hh
    · have hr : r = (f, s) := hh.symm
      subst hr
      rw [List.foldl_cons, foldUpd_apply_not_mem rest _ _ hnd.1]
      exact Function.update_same _ _ _
    · exact ih _ hnd.2 hh

/-- `stepModule` preserves the list of function names. -/
theorem stepModule_names (og : Name → Bool) (ofc : Name → Name)
    (st : OState) :
    (stepModule og ofc st).1.map FuncCFG.name = st.1.map FuncCFG.name := by
  show ((st.1.map (doWalkFunction og ofc st.2)).map Prod.fst).map FuncCFG.name
    = st.1.map FuncCFG.name
  rw [List.map_map, List.map_map]
  exact List.map_congr_left (fun f _ => rfl)

/-- With pairwise distinct names, the swapped-in map holds each function's
walked entry set. -/
theorem stepModule_apply (og : Name → Bool) (ofc : Name → Name)
    (fs : List FuncCFG) (m : Name → GSet)
    (hnd : (fs.map FuncCFG.name).Nodup) (f : FuncCFG) (hf : f ∈ fs) :
    (stepModule og ofc (fs, m)).2 f.name = (doWalkFunction og ofc m f).2 := by
  have hmaps : (fs.map (doWalkFunction og ofc m)).map (fun r => r.1.name)
      = fs.map FuncCFG.name := by
    rw [List.map_map]
    exact List.map_congr_left (fun g _ => rfl)
  have hpair : ((doWalkFunction og ofc m f).1, (doWalkFunction og ofc m f).2)
      = doWalkFunction og ofc m f := rfl
  have hname : f.name = (doWalkFunction og ofc m f).1.name := rfl
  show ((fs.map (doWalkFunction og ofc m)).foldl
    (fun (m2 : Name → GSet) r => Function.update m2 r.1.name r.2)
    (fun _ => ∅)) f.name = (doWalkFunction og ofc m f).2
  rw [hname]
  refine foldUpd_apply_mem _ _ _ _ (by rw [hmaps]; exact hnd) ?_
  rw [hpair]
  exact List.mem_map_of_mem _ hf

/-- Names outside the module map to the empty set after the swap. -/
theorem stepModule_apply_not_mem (og : Name → Bool) (ofc : Name → Name)
    (fs : List FuncCFG) (m : Name → GSet) (n : Name)
    (h : n ∉ fs.map FuncCFG.name) :
    (stepModule og ofc (fs, m)).2 n = ∅ := by
  have hmaps : (fs.map (doWalkFunction og ofc m)).map (fun r => r.1.name)
      = fs.map FuncCFG.name := by
    rw [List.map_map]
    exact List.map_congr_left (fun g _ => rfl)
  show ((fs.map (doWalkFunction og ofc m)).foldl
    (fun (m2 : Name → GSet) r => Function.update m2 r.1.name r.2)
    (fun _ => ∅)) n = ∅
  rw [foldUpd_apply_not_mem _ _ _ (by rw [hmaps]; exact h)]

/-- Re-walking a walked function with a map that is larger on every
non-`once` function yields a larger entry set. -/
theorem doWalk_mono (og : Name → Bool) (ofc : Name → Name)
    (sm sm' : Name → GSet) (hsm : ∀ t, ofc t = 0 → sm t ⊆ sm' t)
    (f : FuncCFG) :
    (doWalkFunction og ofc sm f).2 ⊆
      (doWalkFunction og ofc sm' ((doWalkFunction og ofc sm f).1)).2 := by
  exact procBlocks_mono og ofc sm sm' f.iDoms hsm f.blocks 0
    (fun _ => ∅) (fun _ => ∅) (fun _ => Finset.Subset.refl _) 0

/-- The walked entry set stays inside the `once` globals. -/
theorem doWalk_subsetO (og : Name → Bool) (ofc : Name → Name)
    (sm : Name → GSet) (O : Finset Name)
    (hog : ∀ g, og g = true → g ∈ O)
    (hofc : ∀ t, ofc t ≠ 0 → ofc t ∈ O)
    (hsm : ∀ t, sm t ⊆ O) (f : FuncCFG) :
    (doWalkFunction og ofc sm f).2 ⊆ O := by
  exact procBlocks_subsetO og ofc sm O f.iDoms hog hofc hsm f.blocks 0
    (fun _ => ∅) (fun _ => Finset.empty_subset O) 0

/-- The core of the driver's `assert`: running one more iteration on top
of an iteration whose input map was (on non-`once` functions) below its
output map produces a pointwise larger map. -/
theorem stepModule_mono (og : Name → Bool) (ofc : Name → Name)
    (fs : List FuncCFG) (m m' : Name → GSet)
    (hnd : (fs.map FuncCFG.name).Nodup)
    (hm : ∀ t, ofc t = 0 → m t ⊆ m' t) :
    ∀ n, (stepModule og ofc (fs, m)).2 n ⊆
      (stepModule og ofc ((stepModule og ofc (fs, m)).1, m')).2 n := by
  intro n
  by_cases hn : n ∈ fs.map FuncCFG.name
  · obtain ⟨f, hf, rfl⟩ := List.mem_map.mp hn
    rw [stepModule_apply og ofc fs m hnd f hf]
    have hfs1 : (stepModule og ofc (fs, m)).1
        = fs.map (fun g => (doWalkFunction og ofc m g).1) := by
      show (fs.map (doWalkFunction og ofc m)).map Prod.fst = _
      rw [List.map_map]
      rfl
    have hnd' : ((stepModule og ofc (fs, m)).1.map FuncCFG.name).Nodup := by
      rw [stepModule_names]
      exact hnd
    have hf' : (doWalkFunction og ofc m f).1 ∈ (stepModule og ofc (fs, m)).1 := by
      rw [hfs1]
      exact List.mem_map_of_mem _ hf
    have hname : (doWalkFunction og ofc m f).1.name = f.name := rfl
    rw [show (stepModule og ofc ((stepModule og ofc (fs, m)).1, m')).2 f.name
        = (doWalkFunction og ofc m' ((doWalkFunction og ofc m f).1)).2 from by
      rw [← hname]
      exact stepModule_apply og ofc _ m' hnd' _ hf']
    exact doWalk_mono og ofc m m' hm f
  · rw [stepModule_apply_not_mem og ofc fs m n hn]
    exact Finset.empty_subset _

/-- The swapped-in map stays inside the `once` globals. -/
theorem stepModule_subsetO (og : Name → Bool) (ofc : Name → Name)
    (fs : List FuncCFG) (m : Name → GSet) (O : Finset Name)
    (hog : ∀ g, og g = true → g ∈ O)
    (hofc : ∀ t, ofc t ≠ 0 → ofc t ∈ O)
    (hm : ∀ t, m t ⊆ O) :
    ∀ n, (stepModule og ofc (fs, m)).2 n ⊆ O := by
  intro n
  have key : ∀ (rs : List (FuncCFG × GSet)) (init : Name → GSet),
      (∀ n2, init n2 ⊆ O) → (∀ r ∈ rs, r.2 ⊆ O) →
      (rs.foldl (fun (m2 : Name → GSet) r =>
        Function.update m2 r.1.name r.2) init) n ⊆ O := by
    intro rs
    induction rs with
    | nil => intro init hinit _; exact hinit n
    | cons r rest ih =>
      intro init hinit hrs
      rw [List.foldl_cons]
      refine ih _ ?_ (fun r2 hr2 => hrs r2 (List.mem_cons_of_mem _ hr2))
      intro n2
      rw [Function.update_apply]
      split
      · exact hrs r (List.mem_cons_self _ _)
      · exact hinit n2
  refine key _ _ (fun _ => Finset.empty_subset O) ?_
  intro r hr
  obtain ⟨f, _, rfl⟩ := List.mem_map.mp hr
  exact doWalk_subsetO og ofc m O hog hofc hm f

/-- Pointwise growth of the map across the computed iterations: from the
first computed iteration on, each swap only grows the map. -/
theorem iterate_pointwise_mono (og : Name → Bool) (ofc : Name → Name)
    (fs0 : List FuncCFG) (hnd : (fs0.map FuncCFG.name).Nodup) :
    ∀ k, 1 ≤ k → ∀ n,
      ((stepModule og ofc)^[k] (fs0, initSetMap ofc)).2 n ⊆
        ((stepModule og ofc)^[k + 1] (fs0, initSetMap ofc)).2 n := by
  have hnames : ∀ k, ((stepModule og ofc)^[k]
      (fs0, initSetMap ofc)).1.map FuncCFG.name = fs0.map FuncCFG.name := by
    intro k
    induction k with
    | zero => rfl
    | succ k2 ih =>
      rw [Function.iterate_succ_apply', stepModule_names]
      exact ih
  intro k
  induction k with
  | zero => intro h; exact absurd h (by omega)
  | succ k2 ih =>
    intro _ n
    by_cases hk : 1 ≤ k2
    · have hmono := ih hk
      rw [Function.iterate_succ_apply', Function.iterate_succ_apply']
      have hpair : (stepModule og ofc)^[k2 + 1] (fs0, initSetMap ofc)
          = ((stepModule og ofc ((stepModule og ofc)^[k2]
              (fs0, initSetMap ofc))).1,
             (stepModule og ofc ((stepModule og ofc)^[k2]
              (fs0, initSetMap ofc))).2) := by
        rw [Function.iterate_succ_apply']
      have hst : (stepModule og ofc)^[k2] (fs0, initSetMap ofc)
          = (((stepModule og ofc)^[k2] (fs0, initSetMap ofc)).1,
             ((stepModule og ofc)^[k2] (fs0, initSetMap ofc)).2) := rfl
      rw [hpair]
      rw [hst]
      refine stepModule_mono og ofc _ _ _ ?_ ?_ n
      · exact hnames k2 ▸ hnd
      · intro t _
        have := hmono t
        rw [Function.iterate_succ_apply'] at this
        exact this
    · have hk0 : k2 = 0 := by omega
      subst hk0
      rw [Function.iterate_succ_apply', Function.iterate_succ_apply']
      have hpair0 : (stepModule og ofc)^[0 + 1] (fs0, initSetMap ofc)
          = ((stepModule og ofc (fs0, initSetMap ofc)).1,
             (stepModule og ofc (fs0, initSetMap ofc)).2) := by
        rw [Function.iterate_succ_apply', Function.iterate_zero_apply]
      rw [hpair0]
      refine stepModule_mono og ofc fs0 (initSetMap ofc) _ hnd ?_ n
      intro t ht
      simp [initSetMap, ht]

/-- A pointwise larger map over the same function names gives a larger
total. -/
theorem totalSize_mono (fs fs' : List FuncCFG) (m m' : Name → GSet)
    (hnames : fs.map FuncCFG.name = fs'.map FuncCFG.name)
    (h : ∀ n, m n ⊆ m' n) :
    totalSize fs m ≤ totalSize fs' m' := by
  have h1 : totalSize fs m
      = ((fs.map FuncCFG.name).map (fun n => (m n).card)).sum := by
    rw [totalSize, List.map_map]
    rfl
  have h2 : totalSize fs' m'
      = ((fs'.map FuncCFG.name).map (fun n => (m' n).card)).sum := by
    rw [totalSize, List.map_map]
    rfl
  rw [h1, h2, ← hnames]
  exact List.sum_le_sum (fun n _ => Finset.card_le_card (h n))

/-- Sums of per-name set sizes are bounded by `length * |O|` when every
set sits inside `O`. -/
theorem sum_card_le (m : Name → GSet) (c : Nat) :
    ∀ (l : List Name), (∀ n ∈ l, (m n).card ≤ c) →
      (l.map (fun n => (m n).card)).sum ≤ l.length * c := by
  intro l
  induction l with
  | nil => intro _; simp
  | cons x rest ih =>
    intro h
    simp only [List.map_cons, List.sum_cons, List.length_cons]
    have h1 := ih (fun n hn => h n (List.mem_cons_of_mem _ hn))
    have h2 := h x (List.mem_cons_self _ _)
    calc (m x).card + (rest.map (fun n => (m n).card)).sum
        ≤ c + rest.length * c := Nat.add_le_add h2 h1
      _ = (rest.length + 1) * c := by ring

/-- If some name contributes nothing and every set sits inside `O`, the
total is bounded by `(length - 1) * |O|`. -/
theorem totalSize_le_of_zero_mem (fs : List FuncCFG) (m : Name → GSet)
    (O : Finset Name) (hsub : ∀ n, (m n).card ≤ O.card)
    (f0 : Name) (hf0 : f0 ∈ fs.map FuncCFG.name) (h0 : (m f0).card = 0) :
    totalSize fs m ≤ (fs.length - 1) * O.card := by
  obtain ⟨l1, l2, hsplit⟩ := List.append_of_mem hf0
  have hts : totalSize fs m
      = ((fs.map FuncCFG.name).map (fun n => (m n).card)).sum := by
    rw [totalSize, List.map_map]
    rfl
  have hlen : fs.length = l1.length + l2.length + 1 := by
    have := congrArg List.length hsplit
    simpa [List.length_append, List.length_map] using this
  rw [hts, hsplit]
  simp only [List.map_append, List.map_cons, List.sum_append, List.sum_cons,
    h0, Nat.zero_add]
  have h1 := sum_card_le m O.card l1 (fun n _ => hsub n)
  have h2 := sum_card_le m O.card l2 (fun n _ => hsub n)
  calc (l1.map (fun n => (m n).card)).sum
        + (l2.map (fun n => (m n).card)).sum
      ≤ l1.length * O.card + l2.length * O.card := Nat.add_le_add h1 h2
    _ = (l1.length + l2.length) * O.card := by ring
    _ = (fs.length - 1) * O.card := by rw [hlen, Nat.add_sub_cancel]

/-- The inductive invariant of the driver loop: the function names are
fixed, the map stays inside the `once` globals, and some function has an
empty, undominated entry block (a `once` function's CFG). -/
def DriverInv (O : Finset Name) (names0 : List Name) (st : OState) : Prop :=
  st.1.map FuncCFG.name = names0
  ∧ (∀ n, st.2 n ⊆ O)
  ∧ ∃ f ∈ st.1, f.blocks.getD 0 [] = []
      ∧ f.iDoms.getD 0 Option.none = Option.none

/-- One driver iteration preserves the invariant. -/
theorem driverInv_step (og : Name → Bool) (ofc : Name → Name)
    (O : Finset Name) (names0 : List Name)
    (hog : ∀ g, og g = true → g ∈ O)
    (hofc : ∀ t, ofc t ≠ 0 → ofc t ∈ O)
    (st : OState) (hinv : DriverInv O names0 st) :
    DriverInv O names0 (stepModule og ofc st) := by
  obtain ⟨hn, hm, f, hf, hfb, hfd⟩ := hinv
  refine ⟨?_, ?_, ?_⟩
  · rw [stepModule_names]
    exact hn
  · exact stepModule_subsetO og ofc st.1 st.2 O hog hofc hm
  · refine ⟨(doWalkFunction og ofc st.2 f).1, ?_, ?_, ?_⟩
    · show _ ∈ (st.1.map (doWalkFunction og ofc st.2)).map Prod.fst
      rw [List.map_map]
      exact List.mem_map_of_mem _ hf
    · exact (doWalk_entry_empty og ofc st.2 f hfb hfd).2.1
    · exact (doWalk_entry_empty og ofc st.2 f hfb hfd).2.2.1

/-- Under the invariant, the total computed by one more iteration is at
most `(F - 1) * |O|`: the `once` function's entry block contributes
nothing. -/
theorem step_total_bound (og : Name → Bool) (ofc : Name → Name)
    (O : Finset Name) (names0 : List Name) (hnd : names0.Nodup)
    (hog : ∀ g, og g = true → g ∈ O)
    (hofc : ∀ t, ofc t ≠ 0 → ofc t ∈ O)
    (st : OState) (hinv : DriverInv O names0 st) :
    totalSize (stepModule og ofc st).1 (stepModule og ofc st).2
      ≤ (names0.length - 1) * O.card := by
  obtain ⟨hn, hm, f, hf, hfb, hfd⟩ := hinv
  have hnd1 : (st.1.map FuncCFG.name).Nodup := hn ▸ hnd
  have hsub : ∀ n, ((stepModule og ofc st).2 n).card ≤ O.card :=
    fun n => Finset.card_le_card
      (stepModule_subsetO og ofc st.1 st.2 O hog hofc hm n)
  have hzero : ((stepModule og ofc st).2 f.name).card = 0 := by
    rw [stepModule_apply og ofc st.1 st.2 hnd1 f hf,
      (doWalk_entry_empty og ofc st.2 f hfb hfd).1]
    rfl
  have hmem : f.name ∈ (stepModule og ofc st).1.map FuncCFG.name := by
    rw [stepModule_names, hn, ← hn]
    exact List.mem_map_of_mem _ hf
  have hlen : (stepModule og ofc st).1.length = names0.length := by
    have := congrArg List.length (stepModule_names og ofc st)
    rw [hn] at this
    simpa [List.length_map] using this
  have := totalSize_le_of_zero_mem (stepModule og ofc st).1
    (stepModule og ofc st).2 O hsub f.name hmem hzero
  rw [hlen] at this
  exact this

/-- Fuel-indexed termination of the driver loop, for any step bound `B`
and invariant: when the supplied fuel covers `B + 1 - last`, the loop
returns, in at most that many iterations. -/
theorem driverLoop_term_gen (og : Name → Bool) (ofc : Name → Name)
    (Inv : OState → Prop) (B : Nat)
    (hbound : ∀ st, Inv st →
      totalSize (stepModule og ofc st).1 (stepModule og ofc st).2 ≤ B)
    (hpres : ∀ st, Inv st → Inv (stepModule og ofc st)) :
    ∀ (fuel : Nat) (st : OState) (last : Nat), Inv st → last ≤ B →
      B + 1 - last ≤ fuel →
      ∃ r, driverLoop og ofc fuel st last = some r
        ∧ r.2 ≤ B + 1 - last := by
  intro fuel
  induction fuel with
  | zero =>
    intro st last _ hlast hfuel
    omega
  | succ fuel ih =>
    intro st last hinv hlast hfuel
    have hcurr := hbound st hinv
    have hinv2 := hpres st hinv
    by_cases hlt :
        last < totalSize (stepModule og ofc st).1 (stepModule og ofc st).2
    · obtain ⟨r, hr, hiter⟩ := ih (stepModule og ofc st)
        (totalSize (stepModule og ofc st).1 (stepModule og ofc st).2)
        hinv2 hcurr (by omega)
      refine ⟨(r.1, r.2 + 1), ?_, by omega⟩
      show (if last <
            totalSize (stepModule og ofc st).1 (stepModule og ofc st).2 then
          match driverLoop og ofc fuel (stepModule og ofc st)
            (totalSize (stepModule og ofc st).1 (stepModule og ofc st).2) with
          | some r2 => some (r2.1, r2.2 + 1)
          | Option.none => Option.none
        else some (stepModule og ofc st, 1)) = some (r.1, r.2 + 1)
      rw [if_pos hlt, hr]
    · refine ⟨(stepModule og ofc st, 1), ?_, by omega⟩
      show (if last <
            totalSize (stepModule og ofc st).1 (stepModule og ofc st).2 then
          match driverLoop og ofc fuel (stepModule og ofc st)
            (totalSize (stepModule og ofc st).1 (stepModule og ofc st).2) with
          | some r2 => some (r2.1, r2.2 + 1)
          | Option.none => Option.none
        else some (stepModule og ofc st, 1)) = some (stepModule og ofc st, 1)
      rw [if_neg hlt]

/-- Claim C5: the driver repeats the per-function optimizer exactly while
the total `Σ |onceGlobalsSetInFuncs[f]|` strictly increases (that is the
loop condition of `driverLoop`, translated from the source), the total
never shrinks across computed iterations (the `assert` in the source),
and the loop terminates within `|functions| * |onceGlobals|` iterations.
`O` is any set containing every `once` global; the hypotheses on `foo`
say a `once` function exists (which is the condition under which the
driver enters the loop at all) and record the shape of its CFG: an entry
block holding only the unrecorded guard read, with no dominator. -/
theorem driver_monotone_and_terminates
    (og : Name → Bool) (ofc : Name → Name) (fs0 : List FuncCFG)
    (O : Finset Name)
    (hnd : (fs0.map FuncCFG.name).Nodup)
    (hog : ∀ g, og g = true → g ∈ O)
    (hofc : ∀ t, ofc t ≠ 0 → og (ofc t) = true)
    (foo : FuncCFG) (hfoo : foo ∈ fs0) (hfooOnce : ofc foo.name ≠ 0)
    (hfooB : foo.blocks.getD 0 [] = [])
    (hfooD : foo.iDoms.getD 0 Option.none = Option.none) :
    (∀ k, 1 ≤ k →
      totalSize ((stepModule og ofc)^[k] (fs0, initSetMap ofc)).1
          ((stepModule og ofc)^[k] (fs0, initSetMap ofc)).2
        ≤ totalSize ((stepModule og ofc)^[k + 1] (fs0, initSetMap ofc)).1
            ((stepModule og ofc)^[k + 1] (fs0, initSetMap ofc)).2)
    ∧ ∃ r, driverLoop og ofc (fs0.length * O.card)
          (fs0, initSetMap ofc) 0 = some r
        ∧ r.2 ≤ fs0.length * O.card := by
  have hofc2 : ∀ t, ofc t ≠ 0 → ofc t ∈ O := fun t h => hog _ (hofc t h)
  have hnames : ∀ k, ((stepModule og ofc)^[k]
      (fs0, initSetMap ofc)).1.map FuncCFG.name = fs0.map FuncCFG.name := by
    intro k
    induction k with
    | zero => rfl
    | succ k2 ih =>
      rw [Function.iterate_succ_apply', stepModule_names]
      exact ih
  constructor
  · intro k hk
    exact totalSize_mono _ _ _ _ ((hnames k).trans (hnames (k + 1)).symm)
      (iterate_pointwise_mono og ofc fs0 hnd k hk)
  · have hinv0 : DriverInv O (fs0.map FuncCFG.name)
        (fs0, initSetMap ofc) := by
      refine ⟨rfl, ?_, ⟨foo, hfoo, hfooB, hfooD⟩⟩
      intro n
      by_cases h0 : ofc n = 0
      · simp [initSetMap, h0]
      · simp only [initSetMap, if_pos h0]
        exact Finset.singleton_subset_iff.mpr (hofc2 n h0)
    have hcard : 1 ≤ O.card :=
      Finset.card_pos.mpr ⟨ofc foo.name, hofc2 _ hfooOnce⟩
    have hF : 1 ≤ fs0.length := List.length_pos_of_mem hfoo
    have hB : (fs0.map FuncCFG.name).length = fs0.length :=
      List.length_map _ _
    have h1 : (fs0.length - 1) * O.card + O.card = fs0.length * O.card := by
      have h2 : fs0.length - 1 + 1 = fs0.length := Nat.sub_add_cancel hF
      calc (fs0.length - 1) * O.card + O.card
          = (fs0.length - 1 + 1) * O.card := by ring
        _ = fs0.length * O.card := by rw [h2]
    obtain ⟨r, hr, hiter⟩ := driverLoop_term_gen og ofc
      (DriverInv O (fs0.map FuncCFG.name))
      (((fs0.map FuncCFG.name).length - 1) * O.card)
      (fun st hst => step_total_bound og ofc O _ hnd hog hofc2 st hst)
      (fun st hst => driverInv_step og ofc O _ hog hofc2 st hst)
      (fs0.length * O.card) (fs0, initSetMap ofc) 0 hinv0 (Nat.zero_le _)
      (by
        rw [hB, Nat.sub_zero, ← h1]
        exact Nat.add_le_add_left hcard _)
    refine ⟨r, hr, le_trans hiter ?_⟩
    rw [hB, Nat.sub_zero, ← h1]
    exact Nat.add_le_add_left hcard _

/-- Witness for C5 on the minimal concrete module: one `once` function
(named `1`, guarding global `1`) with the prologue CFG. -/
theorem driver_monotone_and_terminates_witness :
    (∀ k, 1 ≤ k →
      totalSize ((stepModule (fun n => n == 1)
            (fun n => if n = 1 then 1 else 0))^[k]
          ([⟨1, [[], [], [.gset 1]], [Option.none, some 0, some 0]⟩],
            initSetMap (fun n => if n = 1 then 1 else 0))).1
          ((stepModule (fun n => n == 1)
            (fun n => if n = 1 then 1 else 0))^[k]
          ([⟨1, [[], [], [.gset 1]], [Option.none, some 0, some 0]⟩],
            initSetMap (fun n => if n = 1 then 1 else 0))).2
        ≤ totalSize ((stepModule (fun n => n == 1)
            (fun n => if n = 1 then 1 else 0))^[k + 1]
          ([⟨1, [[], [], [.gset 1]], [Option.none, some 0, some 0]⟩],
            initSetMap (fun n => if n = 1 then 1 else 0))).1
          ((stepModule (fun n => n == 1)
            (fun n => if n = 1 then 1 else 0))^[k + 1]
          ([⟨1, [[], [], [.gset 1]], [Option.none, some 0, some 0]⟩],
            initSetMap (fun n => if n = 1 then 1 else 0))).2)
    ∧ ∃ r, driverLoop (fun n => n == 1) (fun n => if n = 1 then 1 else 0)
        (([⟨1, [[], [], [.gset 1]],
            [Option.none, some 0, some 0]⟩] : List FuncCFG).length *
          ({1} : Finset Name).card)
        ([⟨1, [[], [], [.gset 1]], [Option.none, some 0, some 0]⟩],
          initSetMap (fun n => if n = 1 then 1 else 0)) 0 = some r
      ∧ r.2 ≤ ([⟨1, [[], [], [.gset 1]],
          [Option.none, some 0, some 0]⟩] : List FuncCFG).length *
        ({1} : Finset Name).card :=
  driver_monotone_and_terminates (fun n => n == 1)
    (fun n => if n = 1 then 1 else 0)
    [⟨1, [[], [], [.gset 1]], [Option.none, some 0, some 0]⟩] {1}
    (by decide)
    (by
      intro g hg
      simp only [beq_iff_eq] at hg
      simp [hg])
    (by
      intro t ht
      by_cases h : t = 1
      · simp [h]
      · simp [h] at ht)
    ⟨1, [[], [], [.gset 1]], [Option.none, some 0, some 0]⟩
    (by simp)
    (by decide) (by decide) (by decide)

end Wasm
